import Mathlib

/-!
Verification of the pleural-vs-parenchymal lung-ultrasound training pipeline.

Shallow embedding of the repository's computational content:
  * src/train.py               (namespace Train)
  * src/data/preprocessor.py   (namespace Preproc)
  * src/explainability/gradcam.py (namespace GradCAM)
  * src/visualization/visualization.py (namespace Viz)

Machine floats are modelled by exact rationals; tensors by nested lists; the
seed-determined shuffles that sklearn performs internally are passed in as
permutation-valued function parameters.
-/

set_option linter.unusedVariables false
set_option linter.unusedSectionVars false

namespace Train

/-- One row of the master frame table (`Frame Path`, `Class`, `Patient`),
the columns `partition_dataset` reads. -/
structure FrameRow (P : Type) where
  framePath : String
  cls : Nat
  patient : P
deriving DecidableEq

variable {P : Type} [DecidableEq P]

/-- Helper for `pdUnique`: keeps elements not yet seen, in first-occurrence
order, mirroring `pandas.Series.unique`. -/
def uniqueAux (seen : List P) : List P → List P
  | [] => []
  | x :: xs => if x ∈ seen then uniqueAux seen xs else x :: uniqueAux (x :: seen) xs

/-- `frame_df['Patient'].unique()`: duplicates removed, first-occurrence order. -/
def pdUnique (l : List P) : List P := uniqueAux [] l

/-- `sklearn.model_selection.train_test_split` with a float `test_size`:
given the seed-shuffled population and the test-set size
(`ceil(test_size * n)`), returns `(train_part, test_part)`. -/
def train_test_split (shuffled : List P) (nTest : Nat) : List P × List P :=
  (shuffled.drop nTest, shuffled.take nTest)

/-- Number of test elements sklearn derives from a fractional `test_size`. -/
def nTestOf (frac : ℚ) (n : Nat) : Nat := (Int.ceil (frac * n)).toNat

/-- `relative_val_split = val_split / (1 - test_split)` (train.py line 77). -/
def relative_val_split (val_split test_split : ℚ) : ℚ :=
  val_split / (1 - test_split)

/-- Patient-level part of `partition_dataset` (train.py lines 76-81): split all
patients into test and train+val by `test_split`, then split train+val by the
relative validation fraction.  Returns `(train_pts, val_pts, test_pts)`. -/
def partition_patients (shuffle1 shuffle2 : List P → List P) (all_pts : List P)
    (val_split test_split : ℚ) : List P × List P × List P :=
  let s1 := shuffle1 all_pts
  let t1 := train_test_split s1 (nTestOf test_split all_pts.length)
  let s2 := shuffle2 t1.1
  let t2 := train_test_split s2 (nTestOf (relative_val_split val_split test_split) t1.1.length)
  (t2.1, t2.2, t1.2)

/-- `partition_dataset` (train.py lines 66-109), frame-level output: the frame
table is filtered by membership of each row's patient in the three patient
partitions.  Returns `(train_df_frames, val_df_frames, test_df_frames)`. -/
def partition_dataset (shuffle1 shuffle2 : List P → List P)
    (frame_df : List (FrameRow P)) (val_split test_split : ℚ) :
    List (FrameRow P) × List (FrameRow P) × List (FrameRow P) :=
  let all_pts := pdUnique (frame_df.map FrameRow.patient)
  let pts := partition_patients shuffle1 shuffle2 all_pts val_split test_split
  (frame_df.filter (fun r => r.patient ∈ pts.1),
   frame_df.filter (fun r => r.patient ∈ pts.2.1),
   frame_df.filter (fun r => r.patient ∈ pts.2.2))

/-- The patient identifiers appearing in partition `a` are disjoint from those
appearing in partition `b`. -/
def PatientDisjoint (a b : List (FrameRow P)) : Prop :=
  ∀ p, p ∈ a.map FrameRow.patient → p ∉ b.map FrameRow.patient

/-- Every row of `df` appears in exactly one of the partitions `a`, `b`, `c`. -/
def ExactlyOnePartition (df a b c : List (FrameRow P)) : Prop :=
  ∀ r ∈ df, (r ∈ a ∧ r ∉ b ∧ r ∉ c) ∨ (r ∉ a ∧ r ∈ b ∧ r ∉ c) ∨ (r ∉ a ∧ r ∉ b ∧ r ∈ c)

/-- A small concrete frame table (patients as naturals) used to instantiate
the partition theorems on explicit data. -/
def sampleFrameDf : List (FrameRow ℕ) :=
  [⟨"p1_c1_f0.jpg", 0, 1⟩, ⟨"p1_c1_f1.jpg", 0, 1⟩, ⟨"p2_c1_f0.jpg", 1, 2⟩,
   ⟨"p3_c1_f0.jpg", 0, 3⟩, ⟨"p4_c1_f0.jpg", 1, 4⟩, ⟨"p5_c1_f0.jpg", 1, 5⟩]

/-- `get_class_weights` (train.py lines 29-41):
`weights[i] = (1.0 / len(histogram)) * sum(histogram) / histogram[i]`,
returned as the mapping `i -> weights[i]`. -/
def get_class_weights (histogram : List ℚ) : List ℚ :=
  histogram.map (fun h => (1 / (histogram.length : ℚ)) * histogram.sum / h)

/-- `pandas.Series.mean` of a scalar metric column. -/
def seriesMean (xs : List ℚ) : ℚ := xs.sum / (xs.length : ℚ)

/-- Square of `pandas.Series.std` (default `ddof=1`, the sample deviation):
sum of squared deviations divided by `n - 1`.  The standard deviation itself
is the square root of this value. -/
def seriesSampleVar (xs : List ℚ) : ℚ :=
  ((xs.map (fun x => (x - seriesMean xs) ^ 2)).sum) / ((xs.length - 1 : ℕ) : ℚ)

/-- Square of the population standard deviation (`ddof=0`), for contrast. -/
def seriesPopVar (xs : List ℚ) : ℚ :=
  ((xs.map (fun x => (x - seriesMean xs) ^ 2)).sum) / ((xs.length : ℕ) : ℚ)

/-- Column `j` of a stack of per-fold vectors (`np.vstack` then indexing). -/
def npColumn (rows : List (List ℚ)) (j : ℕ) : List ℚ := rows.map (fun r => r.getD j 0)

/-- Squares of `np.std(axis=0, ddof=1)` over the stacked per-fold `f1score`
vectors (train.py lines 422-424): one sample variance per class. -/
def f1SampleVarVec (rows : List (List ℚ)) : List ℚ :=
  (List.range (rows.headD []).length).map (fun j => seriesSampleVar (npColumn rows j))

/-- The two summary rows `cross_validation` appends for a scalar metric column
(train.py lines 419-427): `(mean over folds, square of sample std over folds)`. -/
def crossValScalarSummary (foldVals : List ℚ) : ℚ × ℚ :=
  (seriesMean foldVals, seriesSampleVar foldVals)

/-- The cumulative hyperparameter-search results table: the `Trial` column, the
objective-metric column and one column per searched hyperparameter. -/
structure HparamSearchResults where
  trial : List ℕ
  objective : List ℚ
  hparamCols : List (List ℚ)
deriving DecidableEq

/-- `save_hparam_search_results` (train.py lines 257-284): load the existing
results file if present (else start from `init_dict`), append one row whose
trial index is the number of already-recorded trials, whose objective entry is
`1 - score` and whose hyperparameter entries are the sampled values, and write
the table back. -/
def save_hparam_search_results (existing : Option HparamSearchResults)
    (init_dict : HparamSearchResults) (score : ℚ) (hparamVals : List ℚ) :
    HparamSearchResults :=
  let results := existing.getD init_dict
  let trial_idx := results.trial.length
  { trial := results.trial ++ [trial_idx],
    objective := results.objective ++ [1 - score],
    hparamCols := List.zipWith (fun col v => col ++ [v]) results.hparamCols hparamVals }

end Train

namespace Preproc

/-- An image: a list of pixel rows (one channel shown; per-channel values). -/
abbrev Image := List (List ℚ)

/-- Number of pixel rows. -/
def imgHeight (img : Image) : ℕ := img.length

/-- Number of pixels in the first row (the tensor width for well-formed images). -/
def imgWidth (img : Image) : ℕ := (img.headD []).length

/-- The image is a well-formed rectangular tensor: all rows share one width. -/
def Rect (img : Image) : Prop := ∀ row ∈ img, row.length = imgWidth img

instance (img : Image) : Decidable (Rect img) := List.decidableBAll _ img

/-- `tf.image.stateless_random_brightness`: a brightness delta drawn
deterministically from `(seed, factor)` by the framework's stateless generator
`prf`, added to every pixel. -/
def tfStatelessRandomBrightness (prf : ℕ × ℕ → ℚ → ℚ) (image : Image)
    (factor : ℚ) (seed : ℕ × ℕ) : Image :=
  image.map (List.map (fun v => v + prf seed factor))

/-- The custom `RandomBrightness` layer (preprocessor.py lines 78-96):
stores the configured factor. -/
structure RandomBrightness where
  factor : ℚ

/-- `RandomBrightness.call` (preprocessor.py lines 90-96): applies
`tf.image.stateless_random_brightness(image, self.factor, (123, 0))` —
the seed pair is the literal `(123, 0)` on every call. -/
def RandomBrightness.call (prf : ℕ × ℕ → ℚ → ℚ) (layer : RandomBrightness)
    (image : Image) : Image :=
  tfStatelessRandomBrightness prf image layer.factor (123, 0)

/-- The layer's `call` as invoked at position `callIdx` of a run: the source
threads no per-call state into `call`, so the invocation index is ignored and
the same literal seed pair is used every time. -/
def RandomBrightness.callInRun (prf : ℕ × ℕ → ℚ → ℚ) (layer : RandomBrightness)
    (callIdx : ℕ) (image : Image) : Image :=
  RandomBrightness.call prf layer image

/-- Mean pixel value of an image. -/
def imageMean (img : Image) : ℚ :=
  ((img.map List.sum).sum) / (((img.map List.length).sum : ℕ) : ℚ)

/-- `tf.keras.layers.RandomContrast`: scales each pixel about the image mean
by the sampled contrast factor. -/
def randomContrast (factor : ℚ) (img : Image) : Image :=
  img.map (List.map (fun v => (v - imageMean img) * factor + imageMean img))

/-- `tf.keras.layers.RandomFlip("horizontal")`: reverses each pixel row when
the sampled coin says to flip. -/
def randomFlip (doFlip : Bool) (img : Image) : Image :=
  if doFlip then img.map List.reverse else img

/-- Grid resampling with constant (zero) fill, the common shape of
`RandomRotation`/`RandomZoom` with `fill_mode='constant'`: each output pixel
reads the source coordinate chosen by the sampled transform, or the fill
value where the transform exposes out-of-bounds area. -/
def resampleConstantFill (src : ℕ → ℕ → Option (ℕ × ℕ)) (img : Image) : Image :=
  (List.range (imgHeight img)).map (fun i =>
    (List.range (imgWidth img)).map (fun j =>
      match src i j with
      | some (a, b) => (img.getD a []).getD b 0
      | none => 0))

/-- The per-batch sampled augmentation randomness: brightness delta, contrast
factor, flip coin, and the coordinate transforms of rotation and zoom. -/
structure AugParams where
  brightnessPrf : ℕ × ℕ → ℚ → ℚ
  brightnessFactor : ℚ
  contrastFactor : ℚ
  flip : Bool
  rotationSrc : ℕ → ℕ → Option (ℕ × ℕ)
  zoomSrc : ℕ → ℕ → Option (ℕ × ℕ)

/-- The composed `self.data_augmentation` sequential model
(preprocessor.py lines 22-28): brightness, contrast, horizontal flip,
rotation, zoom — applied to an image. -/
def data_augmentation (p : AugParams) (img : Image) : Image :=
  resampleConstantFill p.zoomSrc
    (resampleConstantFill p.rotationSrc
      (randomFlip p.flip
        (randomContrast p.contrastFactor
          (RandomBrightness.call p.brightnessPrf ⟨p.brightnessFactor⟩ img))))

/-- The augmentation stage of `Preprocessor.prepare` (preprocessor.py lines
50-52): `ds.map(lambda x, y: (self.data_augmentation(x, training=True), y))` —
the augmentation is applied to the batch's images only, labels pass through. -/
def augmentBatchStage (p : AugParams) (batch : List Image × List ℕ) :
    List Image × List ℕ :=
  (batch.1.map (data_augmentation p), batch.2)

end Preproc

namespace GradCAM

/-- A rank-3 activation/gradient tensor for one image: height, width, channels. -/
abbrev T3 := List (List (List ℚ))

/-- Channel count of a rank-3 tensor (innermost length of the first cell). -/
def numChannels (g : T3) : ℕ := (((g.headD []).headD []) : List ℚ).length

/-- `tf.keras.backend.mean(grads, axis=(0, 1, 2))` for a batch of one image:
the gradients are spatially averaged into one weight per channel
(gradcam.py line 64). -/
def pooledGrads (g : T3) : List ℚ :=
  (List.range (numChannels g)).map (fun k =>
    ((g.map (fun row => (row.map (fun cell => cell.getD k 0)).sum)).sum) /
      ((g.length * (g.headD []).length : ℕ) : ℚ))

/-- `tf.reduce_mean(tf.multiply(pooled_grads, last_conv_layer), axis=-1)`
(gradcam.py line 66): the channel-wise weighted combination of the activations
by the pooled gradient weights (TensorFlow's mean over the channel axis, i.e.
the weighted sum scaled by `1 / num_channels`). -/
def gradcamHeatmapValue (acts grads : T3) : List (List ℚ) :=
  let pooled := pooledGrads grads
  acts.map (fun row => row.map (fun cell =>
    ((List.zipWith (fun p a => p * a) pooled cell).sum) / ((pooled.length : ℕ) : ℚ)))

/-- `GradCAMExplainer.get_gradcam_heatmap` (gradcam.py lines 51-68): computes
`pooled_grads` and `heatmap` exactly as above, then executes a bare `return`
statement — so the Python function yields `None`, not the computed heatmap. -/
def get_gradcam_heatmap (acts grads : T3) : Option (List (List ℚ)) :=
  let pooled_grads := pooledGrads grads
  let heatmap := gradcamHeatmapValue acts grads
  none

/-- `np.finfo('float').eps` (gradcam.py line 21). -/
def EPSILON : ℚ := 1 / 2 ^ 52

/-- `np.max` over the (flattened, non-empty) heatmap values. -/
def npMax : List ℚ → ℚ
  | [] => 0
  | [x] => x
  | x :: y :: t => max x (npMax (y :: t))

/-- `np.maximum(raw_heatmap, 0.0)` (gradcam.py line 135): the ReLU clip. -/
def reluHeatmap (raw : List ℚ) : List ℚ := raw.map (fun v => max v 0)

/-- The divisor of the normalization step (gradcam.py line 136):
the heatmap maximum, or machine epsilon when that maximum is exactly zero. -/
def normDivisor (hm : List ℚ) : ℚ := if npMax hm ≠ 0 then npMax hm else EPSILON

/-- The heatmap post-processing of `apply_gradcam` (gradcam.py lines 134-136):
clip negatives to zero, then divide by the guarded maximum. -/
def postprocessHeatmap (raw : List ℚ) : List ℚ :=
  let hm := reluHeatmap raw
  hm.map (fun v => v / normDivisor hm)

end GradCAM

namespace Viz

/-- `np.round`: round half to even (banker's rounding), as numpy does. -/
def npRound (x : ℚ) : ℤ :=
  let f := Int.floor x
  let frac := x - (f : ℚ)
  if frac < 1 / 2 then f
  else if 1 / 2 < frac then f + 1
  else if f % 2 = 0 then f else f + 1

/-- `predictions = np.round(predictions)` in `plot_confusion_matrix`
(visualization.py line 76): continuous scores become integer class indices. -/
def plotConfusionMatrixPredClasses (predictions : List ℚ) : List ℤ :=
  predictions.map npRound

/-- `sklearn.metrics.confusion_matrix` over ground-truth labels and the rounded
predictions: entry `(i, j)` counts examples with actual class `i` and rounded
predicted class `j`. -/
def confusionMatrix (nClasses : ℕ) (labels : List ℤ) (predictions : List ℚ) :
    List (List ℕ) :=
  (List.range nClasses).map (fun i =>
    (List.range nClasses).map (fun j =>
      ((labels.zip (plotConfusionMatrixPredClasses predictions)).filter
        (fun lp => lp.1 = (i : ℤ) ∧ lp.2 = (j : ℤ))).length))

/-- `pred_class = np.round(prob)` in `visualize_heatmap`
(visualization.py line 124): the displayed predicted-class index. -/
def visualizeHeatmapPredClass (prob : ℚ) : ℤ := npRound prob

end Viz

/-! ## Theorems -/

namespace Train

variable {P : Type} [DecidableEq P]

theorem mem_uniqueAux (a : P) : ∀ (l seen : List P), a ∈ uniqueAux seen l ↔ a ∈ l ∧ a ∉ seen := by
  intro l
  induction l with
  | nil => intro seen; simp [uniqueAux]
  | cons x xs ih =>
    intro seen
    by_cases hx : x ∈ seen
    · simp only [uniqueAux, if_pos hx, ih, List.mem_cons]
      constructor
      · rintro ⟨h1, h2⟩; exact ⟨Or.inr h1, h2⟩
      · rintro ⟨h1 | h1, h2⟩
        · exact absurd (h1 ▸ hx) h2
        · exact ⟨h1, h2⟩
    · simp only [uniqueAux, if_neg hx, List.mem_cons, ih]
      constructor
      · rintro (rfl | ⟨h1, h2⟩)
        · exact ⟨Or.inl rfl, hx⟩
        · refine ⟨Or.inr h1, fun hs => h2 (Or.inr hs)⟩
      · rintro ⟨rfl | h1, h2⟩
        · exact Or.inl rfl
        · by_cases hax : a = x
          · exact Or.inl hax
          · exact Or.inr ⟨h1, fun hs => by
              rcases hs with h | h
              · exact hax h
              · exact h2 h⟩

theorem nodup_uniqueAux : ∀ (l seen : List P), (uniqueAux seen l).Nodup := by
  intro l
  induction l with
  | nil => intro seen; simp [uniqueAux]
  | cons x xs ih =>
    intro seen
    by_cases hx : x ∈ seen
    · simpa [uniqueAux, if_pos hx] using ih seen
    · simp only [uniqueAux, if_neg hx]
      refine List.nodup_cons.mpr ⟨?_, ih (x :: seen)⟩
      intro hmem
      exact ((mem_uniqueAux x xs (x :: seen)).mp hmem).2 (List.mem_cons_self x seen)

theorem mem_pdUnique (a : P) (l : List P) : a ∈ pdUnique l ↔ a ∈ l := by
  simp [pdUnique, mem_uniqueAux]

theorem nodup_pdUnique (l : List P) : (pdUnique l).Nodup := nodup_uniqueAux l []

/-- In a duplicate-free list, each element lies in exactly one side of the
take/drop split at any index. -/
theorem exclusive_take_drop {l : List P} (hnd : l.Nodup) (n : ℕ) {p : P} (hp : p ∈ l) :
    (p ∈ l.take n ∧ p ∉ l.drop n) ∨ (p ∉ l.take n ∧ p ∈ l.drop n) := by
  have hsplit := List.take_append_drop n l
  have hnd' : (l.take n ++ l.drop n).Nodup := by rw [hsplit]; exact hnd
  have hdisj := List.disjoint_of_nodup_append hnd'
  have hmem : p ∈ l.take n ∨ p ∈ l.drop n := by
    rw [← hsplit] at hp; exact List.mem_append.mp hp
  rcases hmem with h | h
  · exact Or.inl ⟨h, fun hd => hdisj h hd⟩
  · exact Or.inr ⟨fun ht => hdisj ht h, h⟩

/-- Patient-level exactness of the two-stage split: each patient of the
(duplicate-free) population lands in exactly one of train/val/test, and the
three patient partitions only contain population members. -/
theorem partition_patients_cases
    (shuffle1 shuffle2 : List P → List P)
    (hs1 : ∀ l : List P, (shuffle1 l).Perm l) (hs2 : ∀ l : List P, (shuffle2 l).Perm l)
    (all_pts : List P) (hnd : all_pts.Nodup) (v t : ℚ) (p : P) :
    (p ∈ all_pts →
      ((p ∈ (partition_patients shuffle1 shuffle2 all_pts v t).1 ∧
        p ∉ (partition_patients shuffle1 shuffle2 all_pts v t).2.1 ∧
        p ∉ (partition_patients shuffle1 shuffle2 all_pts v t).2.2) ∨
       (p ∉ (partition_patients shuffle1 shuffle2 all_pts v t).1 ∧
        p ∈ (partition_patients shuffle1 shuffle2 all_pts v t).2.1 ∧
        p ∉ (partition_patients shuffle1 shuffle2 all_pts v t).2.2) ∨
       (p ∉ (partition_patients shuffle1 shuffle2 all_pts v t).1 ∧
        p ∉ (partition_patients shuffle1 shuffle2 all_pts v t).2.1 ∧
        p ∈ (partition_patients shuffle1 shuffle2 all_pts v t).2.2))) ∧
    ((p ∈ (partition_patients shuffle1 shuffle2 all_pts v t).1 ∨
      p ∈ (partition_patients shuffle1 shuffle2 all_pts v t).2.1 ∨
      p ∈ (partition_patients shuffle1 shuffle2 all_pts v t).2.2) → p ∈ all_pts) := by
  have h1 : (shuffle1 all_pts).Perm all_pts := hs1 all_pts
  have hnd1 : (shuffle1 all_pts).Nodup := h1.symm.nodup hnd
  set s1 := shuffle1 all_pts with hs1def
  set k := nTestOf t all_pts.length with hkdef
  have h2 : (shuffle2 (s1.drop k)).Perm (s1.drop k) := hs2 (s1.drop k)
  have hndtv : (s1.drop k).Nodup := by
    have := List.nodup_append.mp (by rw [List.take_append_drop k s1]; exact hnd1)
    exact this.2.1
  have hnd2 : (shuffle2 (s1.drop k)).Nodup := h2.symm.nodup hndtv
  set s2 := shuffle2 (s1.drop k) with hs2def
  set m := nTestOf (relative_val_split v t) (s1.drop k).length with hmdef
  have htrain : (partition_patients shuffle1 shuffle2 all_pts v t).1 = s2.drop m := rfl
  have hval : (partition_patients shuffle1 shuffle2 all_pts v t).2.1 = s2.take m := rfl
  have htest : (partition_patients shuffle1 shuffle2 all_pts v t).2.2 = s1.take k := rfl
  rw [htrain, hval, htest]
  constructor
  · intro hp
    have hps1 : p ∈ s1 := h1.mem_iff.mpr hp
    rcases exclusive_take_drop hnd1 k hps1 with ⟨hin, hout⟩ | ⟨hout, hin⟩
    · -- p is a test patient
      have hnotv : p ∉ s2 := fun hs => hout (h2.mem_iff.mp hs)
      exact Or.inr (Or.inr ⟨fun h => hnotv (List.mem_of_mem_drop h),
        fun h => hnotv (List.mem_of_mem_take h), hin⟩)
    · -- p is a train+val patient
      have hps2 : p ∈ s2 := h2.mem_iff.mpr hin
      rcases exclusive_take_drop hnd2 m hps2 with ⟨hv, hnt⟩ | ⟨hnv, ht⟩
      · exact Or.inr (Or.inl ⟨hnt, hv, hout⟩)
      · exact Or.inl ⟨ht, hnv, hout⟩
  · rintro (h | h | h)
    · exact h1.mem_iff.mp (List.mem_of_mem_drop (h2.mem_iff.mp (List.mem_of_mem_drop h)))
    · exact h1.mem_iff.mp (List.mem_of_mem_drop (h2.mem_iff.mp (List.mem_of_mem_take h)))
    · exact h1.mem_iff.mp (List.mem_of_mem_take h)

theorem mem_partition_dataset_train (sh1 sh2 : List P → List P)
    (df : List (FrameRow P)) (v t : ℚ) (r : FrameRow P) :
    r ∈ (partition_dataset sh1 sh2 df v t).1 ↔
      r ∈ df ∧ r.patient ∈ (partition_patients sh1 sh2 (pdUnique (df.map FrameRow.patient)) v t).1 := by
  simp [partition_dataset, List.mem_filter]

theorem mem_partition_dataset_val (sh1 sh2 : List P → List P)
    (df : List (FrameRow P)) (v t : ℚ) (r : FrameRow P) :
    r ∈ (partition_dataset sh1 sh2 df v t).2.1 ↔
      r ∈ df ∧ r.patient ∈ (partition_patients sh1 sh2 (pdUnique (df.map FrameRow.patient)) v t).2.1 := by
  simp [partition_dataset, List.mem_filter]

theorem mem_partition_dataset_test (sh1 sh2 : List P → List P)
    (df : List (FrameRow P)) (v t : ℚ) (r : FrameRow P) :
    r ∈ (partition_dataset sh1 sh2 df v t).2.2 ↔
      r ∈ df ∧ r.patient ∈ (partition_patients sh1 sh2 (pdUnique (df.map FrameRow.patient)) v t).2.2 := by
  simp [partition_dataset, List.mem_filter]

end Train

namespace Train

variable {P : Type} [DecidableEq P]

/-- Claim C1: for every generated train/validation/test partition produced by
`partition_dataset`, the set of patient identifiers appearing in any one
partition is disjoint from the patient sets of the other two, and every row of
the original frame table appears in exactly one of the three frame-level
partitions. -/
theorem partition_dataset_patient_disjoint_and_exactly_one
    (shuffle1 shuffle2 : List P → List P)
    (hs1 : ∀ l : List P, (shuffle1 l).Perm l) (hs2 : ∀ l : List P, (shuffle2 l).Perm l)
    (frame_df : List (FrameRow P)) (val_split test_split : ℚ) :
    PatientDisjoint (partition_dataset shuffle1 shuffle2 frame_df val_split test_split).1
      (partition_dataset shuffle1 shuffle2 frame_df val_split test_split).2.1 ∧
    PatientDisjoint (partition_dataset shuffle1 shuffle2 frame_df val_split test_split).1
      (partition_dataset shuffle1 shuffle2 frame_df val_split test_split).2.2 ∧
    PatientDisjoint (partition_dataset shuffle1 shuffle2 frame_df val_split test_split).2.1
      (partition_dataset shuffle1 shuffle2 frame_df val_split test_split).2.2 ∧
    ExactlyOnePartition frame_df
      (partition_dataset shuffle1 shuffle2 frame_df val_split test_split).1
      (partition_dataset shuffle1 shuffle2 frame_df val_split test_split).2.1
      (partition_dataset shuffle1 shuffle2 frame_df val_split test_split).2.2 := by
  have hnd := nodup_pdUnique (frame_df.map FrameRow.patient)
  have hspec := fun p => partition_patients_cases shuffle1 shuffle2 hs1 hs2
    (pdUnique (frame_df.map FrameRow.patient)) hnd val_split test_split p
  -- pairwise exclusivity of the three patient partitions
  have key : ∀ p : P,
      (p ∈ (partition_patients shuffle1 shuffle2 (pdUnique (frame_df.map FrameRow.patient)) val_split test_split).1 →
        p ∉ (partition_patients shuffle1 shuffle2 (pdUnique (frame_df.map FrameRow.patient)) val_split test_split).2.1 ∧
        p ∉ (partition_patients shuffle1 shuffle2 (pdUnique (frame_df.map FrameRow.patient)) val_split test_split).2.2) ∧
      (p ∈ (partition_patients shuffle1 shuffle2 (pdUnique (frame_df.map FrameRow.patient)) val_split test_split).2.1 →
        p ∉ (partition_patients shuffle1 shuffle2 (pdUnique (frame_df.map FrameRow.patient)) val_split test_split).2.2) := by
    intro p
    constructor
    · intro h
      have hp : p ∈ pdUnique (frame_df.map FrameRow.patient) := (hspec p).2 (Or.inl h)
      rcases (hspec p).1 hp with ⟨_, h2, h3⟩ | ⟨h1, _, _⟩ | ⟨h1, _, _⟩
      · exact ⟨h2, h3⟩
      · exact absurd h h1
      · exact absurd h h1
    · intro h
      have hp : p ∈ pdUnique (frame_df.map FrameRow.patient) := (hspec p).2 (Or.inr (Or.inl h))
      rcases (hspec p).1 hp with ⟨_, h2, _⟩ | ⟨_, _, h3⟩ | ⟨_, h2, _⟩
      · exact absurd h h2
      · exact h3
      · exact absurd h h2
  refine ⟨?_, ?_, ?_, ?_⟩
  · intro p hp hq
    rw [List.mem_map] at hp hq
    obtain ⟨r, hr, hrp⟩ := hp
    obtain ⟨r', hr', hrp'⟩ := hq
    rw [mem_partition_dataset_train] at hr
    rw [mem_partition_dataset_val] at hr'
    exact ((key p).1 (hrp ▸ hr.2)).1 (hrp' ▸ hr'.2)
  · intro p hp hq
    rw [List.mem_map] at hp hq
    obtain ⟨r, hr, hrp⟩ := hp
    obtain ⟨r', hr', hrp'⟩ := hq
    rw [mem_partition_dataset_train] at hr
    rw [mem_partition_dataset_test] at hr'
    exact ((key p).1 (hrp ▸ hr.2)).2 (hrp' ▸ hr'.2)
  · intro p hp hq
    rw [List.mem_map] at hp hq
    obtain ⟨r, hr, hrp⟩ := hp
    obtain ⟨r', hr', hrp'⟩ := hq
    rw [mem_partition_dataset_val] at hr
    rw [mem_partition_dataset_test] at hr'
    exact (key p).2 (hrp ▸ hr.2) (hrp' ▸ hr'.2)
  · intro r hr
    have hp : r.patient ∈ pdUnique (frame_df.map FrameRow.patient) :=
      (mem_pdUnique _ _).mpr (List.mem_map_of_mem FrameRow.patient hr)
    rcases (hspec r.patient).1 hp with ⟨h1, h2, h3⟩ | ⟨h1, h2, h3⟩ | ⟨h1, h2, h3⟩
    · exact Or.inl ⟨(mem_partition_dataset_train _ _ _ _ _ _).mpr ⟨hr, h1⟩,
        fun hm => h2 ((mem_partition_dataset_val _ _ _ _ _ _).mp hm).2,
        fun hm => h3 ((mem_partition_dataset_test _ _ _ _ _ _).mp hm).2⟩
    · exact Or.inr (Or.inl ⟨fun hm => h1 ((mem_partition_dataset_train _ _ _ _ _ _).mp hm).2,
        (mem_partition_dataset_val _ _ _ _ _ _).mpr ⟨hr, h2⟩,
        fun hm => h3 ((mem_partition_dataset_test _ _ _ _ _ _).mp hm).2⟩)
    · exact Or.inr (Or.inr ⟨fun hm => h1 ((mem_partition_dataset_train _ _ _ _ _ _).mp hm).2,
        fun hm => h2 ((mem_partition_dataset_val _ _ _ _ _ _).mp hm).2,
        (mem_partition_dataset_test _ _ _ _ _ _).mpr ⟨hr, h3⟩⟩)

end Train

namespace Train

/-- Witness for claim C1: the no-leakage/exactly-one property evaluated on a
concrete six-row frame table with identity shuffles and 20%/20% splits. -/
theorem partition_dataset_patient_disjoint_and_exactly_one_witness :
    PatientDisjoint (partition_dataset id id sampleFrameDf (1/5) (1/5)).1
      (partition_dataset id id sampleFrameDf (1/5) (1/5)).2.1 ∧
    PatientDisjoint (partition_dataset id id sampleFrameDf (1/5) (1/5)).1
      (partition_dataset id id sampleFrameDf (1/5) (1/5)).2.2 ∧
    PatientDisjoint (partition_dataset id id sampleFrameDf (1/5) (1/5)).2.1
      (partition_dataset id id sampleFrameDf (1/5) (1/5)).2.2 ∧
    ExactlyOnePartition sampleFrameDf
      (partition_dataset id id sampleFrameDf (1/5) (1/5)).1
      (partition_dataset id id sampleFrameDf (1/5) (1/5)).2.1
      (partition_dataset id id sampleFrameDf (1/5) (1/5)).2.2 :=
  partition_dataset_patient_disjoint_and_exactly_one id id
    (fun l => List.Perm.refl l) (fun l => List.Perm.refl l) sampleFrameDf (1/5) (1/5)

end Train

namespace Train

variable {P : Type} [DecidableEq P]

/-- Claim C4: `partition_dataset` splits off `test_split` of the patients
first, then splits the remaining patients with the relative validation
fraction `val_split / (1 - test_split)`, so that the validation fraction of
the original patient population equals `val_split` (made exact here: when
`test_split * n` and `val_split * n` are whole numbers `k` and `m`, the
validation partition holds exactly `m` of the `n` original patients); in
particular for `val_split = 0.2` and `test_split = 0.2` the relative fraction
applied to the remaining patients equals `0.25`. -/
theorem partition_relative_val_split
    (shuffle1 shuffle2 : List P → List P)
    (hs1 : ∀ l : List P, (shuffle1 l).Perm l) (hs2 : ∀ l : List P, (shuffle2 l).Perm l)
    (all_pts : List P) (v t : ℚ) (k m : ℕ)
    (hv0 : 0 ≤ v) (hvt : v + t ≤ 1) (ht1 : t ≠ 1)
    (hk : t * (all_pts.length : ℚ) = (k : ℚ)) (hm : v * (all_pts.length : ℚ) = (m : ℚ)) :
    relative_val_split (1/5) (1/5) = 1/4 ∧
    relative_val_split v t * (1 - t) = v ∧
    (partition_patients shuffle1 shuffle2 all_pts v t).2.1.length = m := by
  have h1t : (1 - t) ≠ 0 := sub_ne_zero.mpr (Ne.symm ht1)
  refine ⟨by norm_num [relative_val_split], div_mul_cancel₀ v h1t, ?_⟩
  set n := all_pts.length with hn
  have hn0 : (0:ℚ) ≤ (n:ℚ) := Nat.cast_nonneg n
  have ht_le : t ≤ 1 := by linarith
  have hkn : k ≤ n := by
    have hq : (k : ℚ) ≤ (n : ℚ) := by
      rw [← hk]
      exact mul_le_of_le_one_left hn0 ht_le
    exact_mod_cast hq
  have hkk : nTestOf t n = k := by
    simp [nTestOf, hk]
  have hlen1 : (shuffle1 all_pts).length = n := (hs1 all_pts).length_eq
  have htv : ((shuffle1 all_pts).drop (nTestOf t n)).length = n - k := by
    rw [List.length_drop, hlen1, hkk]
  have hcast : (((n - k : ℕ)) : ℚ) = (n : ℚ) - (k : ℚ) := Nat.cast_sub hkn
  have hrel : relative_val_split v t * (((n - k : ℕ)) : ℚ) = (m : ℚ) := by
    rw [hcast, ← hk, ← hm]
    have hfac : (n : ℚ) - t * n = (1 - t) * n := by ring
    rw [hfac, relative_val_split, ← mul_assoc, div_mul_cancel₀ v h1t]
  have hval_size : nTestOf (relative_val_split v t) (n - k) = m := by
    simp [nTestOf, hrel]
  have hmles : m ≤ n - k := by
    have hv1t : v ≤ 1 - t := by linarith
    have h2 : v * (n:ℚ) ≤ (1 - t) * n := mul_le_mul_of_nonneg_right hv1t hn0
    have h3 : (1 - t) * (n:ℚ) = n - t * n := by ring
    have h1 : (m : ℚ) ≤ ((n - k : ℕ) : ℚ) := by
      rw [hcast, ← hm, ← hk]
      linarith
    exact_mod_cast h1
  have hproj : (partition_patients shuffle1 shuffle2 all_pts v t).2.1 =
      (shuffle2 ((shuffle1 all_pts).drop (nTestOf t n))).take
        (nTestOf (relative_val_split v t) ((shuffle1 all_pts).drop (nTestOf t n)).length) := rfl
  rw [hproj, List.length_take, (hs2 _).length_eq, htv, hval_size]
  exact Nat.min_eq_left hmles

/-- Witness for claim C4: ten patients, 20%/20% splits — the relative fraction
is 0.25 and the validation partition gets exactly 2 of the 10 patients. -/
theorem partition_relative_val_split_witness :
    relative_val_split (1/5) (1/5) = 1/4 ∧
    relative_val_split (1/5) (1/5) * (1 - 1/5) = 1/5 ∧
    (partition_patients id id (List.range 10) (1/5) (1/5)).2.1.length = 2 :=
  partition_relative_val_split id id
    (fun l => List.Perm.refl l) (fun l => List.Perm.refl l)
    (List.range 10) (1/5) (1/5) 2 2
    (by norm_num) (by norm_num) (by norm_num)
    (by norm_num [List.length_range]) (by norm_num [List.length_range])

end Train

namespace Train

/-- Claim C2: for every histogram, `get_class_weights` maps each class `i` to
`(1 / num_classes) * total_count / histogram[i]`; for histogram `[80, 20]` it
returns `{0 : 0.625, 1 : 2.5}`, and for any uniform histogram with non-zero
count every class's weight equals `1.0`. -/
theorem get_class_weights_formula :
    (∀ (histogram : List ℚ) (i : ℕ), (get_class_weights histogram)[i]? =
      (histogram[i]?).map (fun h => (1 / (histogram.length : ℚ)) * histogram.sum / h)) ∧
    get_class_weights [80, 20] = [625/1000, 25/10] ∧
    (∀ (n : ℕ) (c : ℚ), c ≠ 0 → get_class_weights (List.replicate n c) = List.replicate n 1) := by
  refine ⟨?_, ?_, ?_⟩
  · intro hist i
    simp [get_class_weights]
  · norm_num [get_class_weights]
  · intro n c hc
    cases n with
    | zero => simp [get_class_weights]
    | succ n =>
      have hn : ((n + 1 : ℕ) : ℚ) ≠ 0 := Nat.cast_ne_zero.mpr (Nat.succ_ne_zero n)
      have hval : (1 / ((n + 1 : ℕ) : ℚ)) * ((List.replicate (n + 1) c).sum) / c = 1 := by
        rw [List.sum_replicate, nsmul_eq_mul]
        field_simp
      simp only [get_class_weights, List.map_replicate, List.length_replicate]
      rw [hval]

/-- Witness for claim C2: a uniform two-class histogram with 50 examples per
class yields weight 1.0 for both classes. -/
theorem get_class_weights_formula_witness :
    get_class_weights (List.replicate 2 (50 : ℚ)) = List.replicate 2 1 :=
  get_class_weights_formula.2.2 2 50 (by norm_num)

end Train

namespace Train

/-- Claim C6: in `cross_validation`'s results table, the `mean` row of a scalar
metric column is the arithmetic mean of the per-fold values and the `std` row
is their sample (`ddof=1`) standard deviation — for per-fold accuracies
`[0.8, 0.9, 0.7]` the mean is `0.8` and the std is `0.1` (its square is the
sample variance `(0.1)^2`, which differs from the population variance) — while
for the vector-valued `f1score` column the recorded deviation is a per-class
vector (here of length 2), not a single scalar. -/
theorem cross_validation_summary_rows :
    crossValScalarSummary [4/5, 9/10, 7/10] = (4/5, (1/10)^2) ∧
    seriesSampleVar [4/5, 9/10, 7/10] ≠ seriesPopVar [4/5, 9/10, 7/10] ∧
    f1SampleVarVec [[4/5, 3/5], [9/10, 7/10], [7/10, 1/2]] = [(1/10)^2, (1/10)^2] ∧
    (f1SampleVarVec [[4/5, 3/5], [9/10, 7/10], [7/10, 1/2]]).length = 2 := by
  refine ⟨?_, ?_, ?_, ?_⟩ <;>
    norm_num [crossValScalarSummary, seriesMean, seriesSampleVar, seriesPopVar,
      f1SampleVarVec, npColumn, List.range_succ]

end Train

namespace Train

/-- Claim C7: invoking `save_hparam_search_results` twice against the same
results file yields the union of both calls' rows (the pre-existing table is
extended, never overwritten: the old columns stay as prefixes), and each
appended row's trial index equals the number of previously recorded trials, so
the trial indices are strictly (monotonically) increasing. -/
theorem save_hparam_search_results_additive
    (r init_dict : HparamSearchResults) (score1 score2 : ℚ) (vals1 vals2 : List ℚ)
    (hwf : r.trial = List.range r.trial.length) :
    (save_hparam_search_results (some r) init_dict score1 vals1).trial
      = r.trial ++ [r.trial.length] ∧
    (save_hparam_search_results (some (save_hparam_search_results (some r) init_dict score1 vals1))
        init_dict score2 vals2).trial
      = r.trial ++ [r.trial.length, r.trial.length + 1] ∧
    (save_hparam_search_results (some (save_hparam_search_results (some r) init_dict score1 vals1))
        init_dict score2 vals2).objective
      = r.objective ++ [1 - score1, 1 - score2] ∧
    (save_hparam_search_results (some (save_hparam_search_results (some r) init_dict score1 vals1))
        init_dict score2 vals2).trial = List.range (r.trial.length + 2) ∧
    ((save_hparam_search_results (some (save_hparam_search_results (some r) init_dict score1 vals1))
        init_dict score2 vals2).trial).Pairwise (fun a b => a < b) := by
  have h1 : (save_hparam_search_results (some r) init_dict score1 vals1).trial
      = r.trial ++ [r.trial.length] := rfl
  have hlen1 : (save_hparam_search_results (some r) init_dict score1 vals1).trial.length
      = r.trial.length + 1 := by rw [h1]; simp
  have h2 : (save_hparam_search_results (some (save_hparam_search_results (some r) init_dict score1 vals1))
      init_dict score2 vals2).trial
      = (r.trial ++ [r.trial.length]) ++ [r.trial.length + 1] := by
    show (save_hparam_search_results (some r) init_dict score1 vals1).trial ++
        [(save_hparam_search_results (some r) init_dict score1 vals1).trial.length]
      = (r.trial ++ [r.trial.length]) ++ [r.trial.length + 1]
    rw [h1]; simp
  have h2' : (save_hparam_search_results (some (save_hparam_search_results (some r) init_dict score1 vals1))
      init_dict score2 vals2).trial
      = r.trial ++ [r.trial.length, r.trial.length + 1] := by
    rw [h2, List.append_assoc]; rfl
  have hrange : (save_hparam_search_results (some (save_hparam_search_results (some r) init_dict score1 vals1))
      init_dict score2 vals2).trial = List.range (r.trial.length + 2) := by
    rw [h2', List.range_succ, List.range_succ, ← hwf, List.append_assoc]; rfl
  have hobj : (save_hparam_search_results (some (save_hparam_search_results (some r) init_dict score1 vals1))
      init_dict score2 vals2).objective
      = r.objective ++ [1 - score1, 1 - score2] := by
    show (save_hparam_search_results (some r) init_dict score1 vals1).objective ++ [1 - score2]
      = r.objective ++ [1 - score1, 1 - score2]
    show (r.objective ++ [1 - score1]) ++ [1 - score2] = r.objective ++ [1 - score1, 1 - score2]
    rw [List.append_assoc]; rfl
  refine ⟨h1, h2', hobj, hrange, ?_⟩
  rw [hrange]
  exact List.pairwise_lt_range _

/-- Witness for claim C7: two successive logger calls against an initially
empty results table record trials `[0, 1]` and both objective rows. -/
theorem save_hparam_search_results_additive_witness :
    (save_hparam_search_results (some ⟨[], [], []⟩) ⟨[], [], []⟩ (1/4) []).trial
      = [] ++ [([] : List ℕ).length] ∧
    (save_hparam_search_results (some (save_hparam_search_results (some ⟨[], [], []⟩) ⟨[], [], []⟩ (1/4) []))
        ⟨[], [], []⟩ (1/2) []).trial
      = [] ++ [([] : List ℕ).length, ([] : List ℕ).length + 1] ∧
    (save_hparam_search_results (some (save_hparam_search_results (some ⟨[], [], []⟩) ⟨[], [], []⟩ (1/4) []))
        ⟨[], [], []⟩ (1/2) []).objective
      = [] ++ [1 - 1/4, 1 - 1/2] ∧
    (save_hparam_search_results (some (save_hparam_search_results (some ⟨[], [], []⟩) ⟨[], [], []⟩ (1/4) []))
        ⟨[], [], []⟩ (1/2) []).trial = List.range (([] : List ℕ).length + 2) ∧
    ((save_hparam_search_results (some (save_hparam_search_results (some ⟨[], [], []⟩) ⟨[], [], []⟩ (1/4) []))
        ⟨[], [], []⟩ (1/2) []).trial).Pairwise (fun a b => a < b) :=
  save_hparam_search_results_additive ⟨[], [], []⟩ ⟨[], [], []⟩ (1/4) (1/2) [] [] (by simp)

end Train

namespace Preproc

theorem imgHeight_map (g : List ℚ → List ℚ) (img : Image) :
    imgHeight (img.map g) = imgHeight img := by simp [imgHeight]

theorem imgWidth_map (g : List ℚ → List ℚ) (hg : ∀ r, (g r).length = r.length)
    (img : Image) : imgWidth (img.map g) = imgWidth img := by
  cases img with
  | nil => rfl
  | cons r rs => simp [imgWidth, hg]

theorem rect_map (g : List ℚ → List ℚ) (hg : ∀ r, (g r).length = r.length)
    (img : Image) (h : Rect img) : Rect (img.map g) := by
  intro row hrow
  rw [List.mem_map] at hrow
  obtain ⟨r, hr, rfl⟩ := hrow
  rw [hg, imgWidth_map g hg]
  exact h r hr

theorem dims_brightness (prf : ℕ × ℕ → ℚ → ℚ) (layer : RandomBrightness) (img : Image) :
    imgHeight (RandomBrightness.call prf layer img) = imgHeight img ∧
    imgWidth (RandomBrightness.call prf layer img) = imgWidth img ∧
    (Rect img → Rect (RandomBrightness.call prf layer img)) := by
  unfold RandomBrightness.call tfStatelessRandomBrightness
  exact ⟨imgHeight_map _ _, imgWidth_map _ (fun r => List.length_map _ _) _,
    rect_map _ (fun r => List.length_map _ _) img⟩

theorem dims_contrast (f : ℚ) (img : Image) :
    imgHeight (randomContrast f img) = imgHeight img ∧
    imgWidth (randomContrast f img) = imgWidth img ∧
    (Rect img → Rect (randomContrast f img)) := by
  unfold randomContrast
  exact ⟨imgHeight_map _ _, imgWidth_map _ (fun r => List.length_map _ _) _,
    rect_map _ (fun r => List.length_map _ _) img⟩

theorem dims_flip (b : Bool) (img : Image) :
    imgHeight (randomFlip b img) = imgHeight img ∧
    imgWidth (randomFlip b img) = imgWidth img ∧
    (Rect img → Rect (randomFlip b img)) := by
  cases b with
  | false => exact ⟨rfl, rfl, fun h => h⟩
  | true =>
    have hdef : randomFlip true img = img.map List.reverse := rfl
    rw [hdef]
    exact ⟨imgHeight_map _ _, imgWidth_map _ (fun r => List.length_reverse r) _,
      rect_map _ (fun r => List.length_reverse r) img⟩

theorem resample_rows (src : ℕ → ℕ → Option (ℕ × ℕ)) (img : Image) :
    ∀ row ∈ resampleConstantFill src img, row.length = imgWidth img := by
  intro row hrow
  simp only [resampleConstantFill, List.mem_map] at hrow
  obtain ⟨i, hi, rfl⟩ := hrow
  simp

theorem dims_resample (src : ℕ → ℕ → Option (ℕ × ℕ)) (img : Image) :
    imgHeight (resampleConstantFill src img) = imgHeight img ∧
    imgWidth (resampleConstantFill src img) = imgWidth img ∧
    Rect (resampleConstantFill src img) := by
  have hh : imgHeight (resampleConstantFill src img) = imgHeight img := by
    simp [resampleConstantFill, imgHeight]
  have hw : imgWidth (resampleConstantFill src img) = imgWidth img := by
    cases hres : resampleConstantFill src img with
    | nil =>
      have h0 : imgHeight img = 0 := by rw [← hh, hres]; rfl
      have himg : img = [] := List.length_eq_zero.mp h0
      rw [himg]
    | cons r rs =>
      have hr : r ∈ resampleConstantFill src img := by
        rw [hres]; exact List.mem_cons_self r rs
      have hlen := resample_rows src img r hr
      simpa [imgWidth] using hlen
  exact ⟨hh, hw, fun row hrow => by rw [hw]; exact resample_rows src img row hrow⟩

/-- A rectangular image's row-length profile is constant. -/
theorem rect_row_lengths (img : Image) (h : Rect img) :
    img.map List.length = List.replicate (imgHeight img) (imgWidth img) := by
  refine List.eq_replicate_iff.mpr ⟨by simp [imgHeight], ?_⟩
  intro w hw
  rw [List.mem_map] at hw
  obtain ⟨r, hr, rfl⟩ := hw
  exact h r hr

/-- The composed augmentation preserves each image's spatial dimensions, and
for rectangular images the whole row-length profile. -/
theorem data_augmentation_dims (p : AugParams) (img : Image) :
    imgHeight (data_augmentation p img) = imgHeight img ∧
    imgWidth (data_augmentation p img) = imgWidth img ∧
    (Rect img → (data_augmentation p img).map List.length = img.map List.length) := by
  obtain ⟨hb1, hb2, hb3⟩ := dims_brightness p.brightnessPrf ⟨p.brightnessFactor⟩ img
  obtain ⟨hc1, hc2, hc3⟩ :=
    dims_contrast p.contrastFactor (RandomBrightness.call p.brightnessPrf ⟨p.brightnessFactor⟩ img)
  obtain ⟨hf1, hf2, hf3⟩ := dims_flip p.flip
    (randomContrast p.contrastFactor (RandomBrightness.call p.brightnessPrf ⟨p.brightnessFactor⟩ img))
  obtain ⟨hr1, hr2, hr3⟩ := dims_resample p.rotationSrc
    (randomFlip p.flip (randomContrast p.contrastFactor
      (RandomBrightness.call p.brightnessPrf ⟨p.brightnessFactor⟩ img)))
  obtain ⟨hz1, hz2, hz3⟩ := dims_resample p.zoomSrc
    (resampleConstantFill p.rotationSrc (randomFlip p.flip (randomContrast p.contrastFactor
      (RandomBrightness.call p.brightnessPrf ⟨p.brightnessFactor⟩ img))))
  have hh : imgHeight (data_augmentation p img) = imgHeight img := by
    unfold data_augmentation
    rw [hz1, hr1, hf1, hc1, hb1]
  have hw : imgWidth (data_augmentation p img) = imgWidth img := by
    unfold data_augmentation
    rw [hz2, hr2, hf2, hc2, hb2]
  refine ⟨hh, hw, fun hrect => ?_⟩
  have hrect_out : Rect (data_augmentation p img) := hz3
  rw [rect_row_lengths _ hrect_out, rect_row_lengths img hrect, hh, hw]

/-- Claim C8: the augmentation stage of `Preprocessor.prepare` applies the
augmentation to the batch's images only — the output batch has exactly `N`
image/label pairs in the original order (the i-th output image is the
augmentation of the i-th input image), the label component is unchanged, and
every image's spatial dimensions are unchanged. -/
theorem prepare_augmentation_images_only (p : AugParams) (imgs : List Image)
    (labels : List ℕ) :
    (augmentBatchStage p (imgs, labels)).2 = labels ∧
    (augmentBatchStage p (imgs, labels)).1.length = imgs.length ∧
    (∀ i : ℕ, (augmentBatchStage p (imgs, labels)).1[i]? =
      (imgs[i]?).map (data_augmentation p)) ∧
    (∀ img ∈ imgs, imgHeight (data_augmentation p img) = imgHeight img ∧
      imgWidth (data_augmentation p img) = imgWidth img) ∧
    (∀ img ∈ imgs, Rect img →
      (data_augmentation p img).map List.length = img.map List.length) := by
  refine ⟨rfl, by simp [augmentBatchStage], ?_, ?_, ?_⟩
  · intro i
    simp [augmentBatchStage, List.getElem?_map]
  · intro img hmem
    exact ⟨(data_augmentation_dims p img).1, (data_augmentation_dims p img).2.1⟩
  · intro img hmem hrect
    exact (data_augmentation_dims p img).2.2 hrect

end Preproc

namespace Preproc

/-- Witness for claim C8: a concrete two-image batch with concrete sampled
augmentation randomness keeps its labels, its pairing and its dimensions. -/
theorem prepare_augmentation_images_only_witness :
    (augmentBatchStage
        ⟨fun s f => f, 1/10, 2, true, fun i j => some (j, i),
          fun i j => if i = 0 then none else some (i, j)⟩
        ([[[1, 2], [3, 4]], [[5, 6], [7, 8]]], [3, 7])).2 = [3, 7] ∧
    (augmentBatchStage
        ⟨fun s f => f, 1/10, 2, true, fun i j => some (j, i),
          fun i j => if i = 0 then none else some (i, j)⟩
        ([[[1, 2], [3, 4]], [[5, 6], [7, 8]]], [3, 7])).1.length
      = ([[[1, 2], [3, 4]], [[5, 6], [7, 8]]] : List Image).length ∧
    (∀ i : ℕ, (augmentBatchStage
        ⟨fun s f => f, 1/10, 2, true, fun i j => some (j, i),
          fun i j => if i = 0 then none else some (i, j)⟩
        ([[[1, 2], [3, 4]], [[5, 6], [7, 8]]], [3, 7])).1[i]? =
      (([[[1, 2], [3, 4]], [[5, 6], [7, 8]]] : List Image)[i]?).map
        (data_augmentation ⟨fun s f => f, 1/10, 2, true, fun i j => some (j, i),
          fun i j => if i = 0 then none else some (i, j)⟩)) ∧
    (∀ img ∈ ([[[1, 2], [3, 4]], [[5, 6], [7, 8]]] : List Image),
      imgHeight (data_augmentation ⟨fun s f => f, 1/10, 2, true, fun i j => some (j, i),
          fun i j => if i = 0 then none else some (i, j)⟩ img) = imgHeight img ∧
      imgWidth (data_augmentation ⟨fun s f => f, 1/10, 2, true, fun i j => some (j, i),
          fun i j => if i = 0 then none else some (i, j)⟩ img) = imgWidth img) ∧
    (∀ img ∈ ([[[1, 2], [3, 4]], [[5, 6], [7, 8]]] : List Image), Rect img →
      (data_augmentation ⟨fun s f => f, 1/10, 2, true, fun i j => some (j, i),
          fun i j => if i = 0 then none else some (i, j)⟩ img).map List.length
        = img.map List.length) :=
  prepare_augmentation_images_only
    ⟨fun s f => f, 1/10, 2, true, fun i j => some (j, i),
      fun i j => if i = 0 then none else some (i, j)⟩
    [[[1, 2], [3, 4]], [[5, 6], [7, 8]]] [3, 7]

/-- Claim C9: the random brightness augmentation is deterministic — every call
to `RandomBrightness.call` passes the same fixed internal seed pair `(123, 0)`
to the stateless brightness primitive, never re-randomized per call, so for a
fixed input image and configured factor any two calls (at any positions in a
run) produce identical output tensors. -/
theorem random_brightness_fixed_seed (prf : ℕ × ℕ → ℚ → ℚ)
    (layer : RandomBrightness) (image : Image) (i j : ℕ) :
    RandomBrightness.callInRun prf layer i image
      = RandomBrightness.callInRun prf layer j image ∧
    RandomBrightness.call prf layer image
      = tfStatelessRandomBrightness prf image layer.factor (123, 0) :=
  ⟨rfl, rfl⟩

end Preproc

namespace GradCAM

/-- Claim C3 (code defect): the classical Grad-CAM routine computes the
pooled-gradient-weighted combination of the final convolutional activations —
for all-ones gradients over a single channel the computed heatmap equals the
activations themselves — but `get_gradcam_heatmap` then executes a bare
`return`, so the computed heatmap is discarded and the function yields `None`
instead of the heatmap its docstring and the spec promise. -/
theorem get_gradcam_heatmap_returns_none :
    get_gradcam_heatmap [[[2], [4]], [[6], [8]]] [[[1], [1]], [[1], [1]]] = none ∧
    gradcamHeatmapValue [[[2], [4]], [[6], [8]]] [[[1], [1]], [[1], [1]]]
      = [[2, 4], [6, 8]] ∧
    get_gradcam_heatmap [[[2], [4]], [[6], [8]]] [[[1], [1]], [[1], [1]]]
      ≠ some (gradcamHeatmapValue [[[2], [4]], [[6], [8]]] [[[1], [1]], [[1], [1]]]) := by
  refine ⟨rfl, ?_, ?_⟩
  · norm_num [gradcamHeatmapValue, pooledGrads, numChannels, List.range_succ]
  · simp [get_gradcam_heatmap]

theorem le_npMax : ∀ (l : List ℚ), ∀ a ∈ l, a ≤ npMax l := by
  intro l
  induction l with
  | nil => intro a ha; cases ha
  | cons x xs ih =>
    intro a ha
    cases xs with
    | nil =>
      rcases List.mem_cons.mp ha with rfl | h
      · exact le_refl _
      · cases h
    | cons y t =>
      have hdef : npMax (x :: y :: t) = max x (npMax (y :: t)) := rfl
      rcases List.mem_cons.mp ha with rfl | h
      · rw [hdef]; exact le_max_left _ _
      · rw [hdef]; exact le_trans (ih a h) (le_max_right _ _)

theorem npMax_mem : ∀ (l : List ℚ), l ≠ [] → npMax l ∈ l := by
  intro l
  induction l with
  | nil => intro h; exact absurd rfl h
  | cons x xs ih =>
    intro _
    cases xs with
    | nil => exact List.mem_cons_self x []
    | cons y t =>
      have hdef : npMax (x :: y :: t) = max x (npMax (y :: t)) := rfl
      rw [hdef]
      rcases max_choice x (npMax (y :: t)) with h | h
      · rw [h]; exact List.mem_cons_self _ _
      · rw [h]; exact List.mem_cons_of_mem x (ih (by simp))

theorem npMax_le {l : List ℚ} {b : ℚ} (hne : l ≠ []) (h : ∀ a ∈ l, a ≤ b) :
    npMax l ≤ b :=
  h (npMax l) (npMax_mem l hne)

theorem npMax_relu : ∀ (l : List ℚ), l ≠ [] → npMax (reluHeatmap l) = max (npMax l) 0 := by
  intro l
  induction l with
  | nil => intro h; exact absurd rfl h
  | cons x xs ih =>
    intro _
    cases xs with
    | nil => rfl
    | cons y t =>
      have h1 : reluHeatmap (x :: y :: t) = (max x 0) :: reluHeatmap (y :: t) := rfl
      have h2 : npMax ((max x 0) :: reluHeatmap (y :: t))
          = max (max x 0) (npMax (reluHeatmap (y :: t))) := rfl
      rw [h1, h2, ih (by simp)]
      rw [max_max_max_comm, max_self]
      rfl

/-- Claim C5 counterexample: for the raw heatmap `[-1]` the raw maximum is
non-zero (it is `-1`), yet the post-processed heatmap's maximum is `0`, not
`1` — the claim's "maximum exactly 1.0 whenever the raw maximum is non-zero"
fails for all-negative raw heatmaps. -/
theorem apply_gradcam_postprocess_cex :
    npMax [(-1 : ℚ)] ≠ 0 ∧ npMax (postprocessHeatmap [(-1 : ℚ)]) ≠ 1 := by
  constructor
  · show (-1 : ℚ) ≠ 0
    norm_num
  · show (max (-1 : ℚ) 0) / normDivisor (reluHeatmap [(-1 : ℚ)]) ≠ 1
    have hm : max (-1 : ℚ) 0 = 0 := max_eq_right (by norm_num)
    rw [hm, zero_div]
    norm_num

/-- Claim C5 (amended): for every non-empty raw heatmap, the post-processed
heatmap of `apply_gradcam` has all values in `[0, 1]`; its maximum is exactly
`1.0` whenever the raw heatmap's maximum is positive (rather than merely
non-zero); and when the raw maximum is exactly `0` no division error can
arise because the strictly positive machine epsilon is substituted as the
divisor. -/
theorem apply_gradcam_postprocess_bounds (raw : List ℚ) (hne : raw ≠ []) :
    (∀ v ∈ postprocessHeatmap raw, 0 ≤ v ∧ v ≤ 1) ∧
    (0 < npMax raw → npMax (postprocessHeatmap raw) = 1) ∧
    (npMax raw = 0 → normDivisor (reluHeatmap raw) = EPSILON ∧ (0 : ℚ) < EPSILON) := by
  have hrne : reluHeatmap raw ≠ [] := by
    cases raw with
    | nil => exact absurd rfl hne
    | cons x xs => simp [reluHeatmap]
  have hpost : postprocessHeatmap raw
      = (reluHeatmap raw).map (fun v => v / normDivisor (reluHeatmap raw)) := rfl
  have hnn : ∀ v ∈ reluHeatmap raw, 0 ≤ v := by
    intro v hv
    rw [reluHeatmap, List.mem_map] at hv
    obtain ⟨u, hu, rfl⟩ := hv
    exact le_max_right u 0
  have hmax_nn : 0 ≤ npMax (reluHeatmap raw) :=
    hnn _ (npMax_mem _ hrne)
  have hbounds : ∀ v ∈ postprocessHeatmap raw, 0 ≤ v ∧ v ≤ 1 := by
    intro v hv
    rw [hpost, List.mem_map] at hv
    obtain ⟨u, hu, rfl⟩ := hv
    by_cases hz : npMax (reluHeatmap raw) = 0
    · have hu0 : u = 0 := le_antisymm (hz ▸ le_npMax _ u hu) (hnn u hu)
      simp [hu0]
    · have hpos : 0 < npMax (reluHeatmap raw) := lt_of_le_of_ne hmax_nn (Ne.symm hz)
      have hd : normDivisor (reluHeatmap raw) = npMax (reluHeatmap raw) := if_pos hz
      rw [hd]
      exact ⟨div_nonneg (hnn u hu) hmax_nn, (div_le_one hpos).mpr (le_npMax _ u hu)⟩
  refine ⟨hbounds, ?_, ?_⟩
  · intro hraw_pos
    have hrm : npMax (reluHeatmap raw) = npMax raw := by
      rw [npMax_relu raw hne]
      exact max_eq_left (le_of_lt hraw_pos)
    have hpos : 0 < npMax (reluHeatmap raw) := hrm ▸ hraw_pos
    have hz : npMax (reluHeatmap raw) ≠ 0 := ne_of_gt hpos
    have hd : normDivisor (reluHeatmap raw) = npMax (reluHeatmap raw) := if_pos hz
    have hone : (1 : ℚ) ∈ postprocessHeatmap raw := by
      rw [hpost, List.mem_map]
      exact ⟨npMax (reluHeatmap raw), npMax_mem _ hrne, by rw [hd]; exact div_self hz⟩
    have hpne : postprocessHeatmap raw ≠ [] := by
      rw [hpost]
      cases hres : reluHeatmap raw with
      | nil => exact absurd hres hrne
      | cons a as => simp
    exact le_antisymm (npMax_le hpne (fun a ha => (hbounds a ha).2)) (le_npMax _ 1 hone)
  · intro hzero
    have hrm : npMax (reluHeatmap raw) = 0 := by
      rw [npMax_relu raw hne, hzero, max_self]
    constructor
    · rw [normDivisor, if_neg]
      simpa using hrm
    · norm_num [EPSILON]

/-- Witness for claim C5 (amended): the raw heatmap `[1, -2]` has positive
maximum; its post-processed values lie in `[0, 1]` with maximum exactly 1. -/
theorem apply_gradcam_postprocess_bounds_witness :
    (∀ v ∈ postprocessHeatmap [(1 : ℚ), -2], 0 ≤ v ∧ v ≤ 1) ∧
    (0 < npMax [(1 : ℚ), -2] → npMax (postprocessHeatmap [(1 : ℚ), -2]) = 1) ∧
    (npMax [(1 : ℚ), -2] = 0 →
      normDivisor (reluHeatmap [(1 : ℚ), -2]) = EPSILON ∧ (0 : ℚ) < EPSILON) :=
  apply_gradcam_postprocess_bounds [(1 : ℚ), -2] (by decide)

end GradCAM

namespace Viz

/-- Claim C10: prediction scores are converted to class indices with numpy's
round-half-to-even — a binary score of exactly `0.5` is assigned to class `0`
both in `plot_confusion_matrix` (the counts land in the class-0 predicted
column) and in `visualize_heatmap` (the displayed predicted class); the
effective decision boundary is not "round up at 0.5" (which would give class
`1`), and halves round to the nearest even integer (`1.5` and `2.5` both round
to `2`). -/
theorem prediction_rounding_half_to_even :
    npRound (1/2) = 0 ∧
    visualizeHeatmapPredClass (1/2) = 0 ∧
    plotConfusionMatrixPredClasses [1/2] = [0] ∧
    confusionMatrix 2 [0] [1/2] = [[1, 0], [0, 0]] ∧
    npRound (1/2) ≠ 1 ∧
    npRound (3/2) = 2 ∧
    npRound (5/2) = 2 := by
  have h12 : npRound (1/2) = 0 := by
    norm_num [npRound]
  have h32 : npRound (3/2) = 2 := by
    norm_num [npRound]
  have h52 : npRound (5/2) = 2 := by
    norm_num [npRound]
  have h12' : npRound 2⁻¹ = 0 := by rw [← one_div]; exact h12
  refine ⟨h12, h12, by simp [plotConfusionMatrixPredClasses, h12'], ?_,
    by rw [h12]; norm_num, h32, h52⟩
  simp [confusionMatrix, plotConfusionMatrixPredClasses, List.range_succ, h12']

end Viz
